import Mathlib

/-!
Shallow embedding of `jcip-annotations.py`, a one-off migration script that
walks a directory tree and rewrites Java import statements of the form
`import org.apache.http.annotation.*` into `import net.jcip.annotations.*`.

Text is modelled as `List Char`, a file's content as a list of lines
(`List (List Char)`), and a directory tree as the inductive `Entry`.
The script's three compiled regexes are translated as follows, matching
CPython `re.match` semantics (match anchored at the start of the string,
`.` matches any character except a newline):
  * `annot_pattern = re.compile('import org\\.apache\\.http\\.annotation\\.')`
    used via `.match(line)` tests whether the line starts with the literal;
  * `java_pattern  = re.compile('^.*\\.java')` used via `.match(file)` tests
    whether `.java` occurs at some position preceded only by non-newline
    characters;
  * `ignore_pattern = re.compile('^(.svn|target|bin|classes)')` tests whether
    the name starts with `target`, `bin`, `classes`, or any non-newline
    character followed by `svn`.
`str.replace(old, new)` is modelled by `pyReplace` (left-to-right replacement
of non-overlapping occurrences; the script only calls it with a non-empty
`old`, and `replaceAux` uses the string length as structural fuel, which is
always sufficient for non-empty `old`).
-/

namespace Jcip

/-- Test whether `p` is a leading prefix of `s` (Python `s.startswith(p)`);
this is also the semantics of an anchored literal regex match. -/
def startsWith : List Char → List Char → Bool
  | _, [] => true
  | [], _ :: _ => false
  | c :: cs, p :: ps => c == p && startsWith cs ps

/-- Test whether `pat` occurs as a contiguous substring of `s` (Python `pat in s`). -/
def occursIn (pat : List Char) : List Char → Bool
  | [] => startsWith [] pat
  | c :: cs => startsWith (c :: cs) pat || occursIn pat cs

/-- Fueled worker for `pyReplace`: scan left to right, replacing each
non-overlapping occurrence of `old` by `new`. The fuel only exists to make
the recursion structural; `pyReplace` supplies `s.length`, which never runs
out when `old` is non-empty. -/
def replaceAux (old new : List Char) : Nat → List Char → List Char
  | 0, s => s
  | _ + 1, [] => []
  | fuel + 1, c :: cs =>
    if startsWith (c :: cs) old then
      new ++ replaceAux old new fuel ((c :: cs).drop old.length)
    else
      c :: replaceAux old new fuel cs

/-- CPython `s.replace(old, new)` for non-empty `old`: replace every
non-overlapping occurrence of `old` in `s` by `new`, scanning left to right. -/
def pyReplace (old new s : List Char) : List Char :=
  replaceAux old new s.length s

/-- The literal searched for, `'import org.apache.http.annotation.'`. -/
def oldImport : List Char := "import org.apache.http.annotation.".toList

/-- The replacement literal, `'import net.jcip.annotations.'`. -/
def newImport : List Char := "import net.jcip.annotations.".toList

/-- Line 57 of the script: `annot_pattern.match(line)` — the anchored regex
match succeeds exactly when the line starts with the `oldImport` literal. -/
def annot_match (line : List Char) : Bool := startsWith line oldImport

/-- The per-line transformation of the loop body (lines 56-60): a matching
line undergoes `line.replace(oldImport, newImport)`, any other line is
written out unchanged. -/
def processLine (line : List Char) : List Char :=
  if annot_match line then pyReplace oldImport newImport line else line

/-- The content written to the temporary file by `process_source`: every
line processed in order. -/
def processLines (content : List (List Char)) : List (List Char) :=
  content.map processLine

/-- The final value of the `changed` flag of `process_source`: set exactly
when some line matched `annot_pattern`. -/
def changedFlag (content : List (List Char)) : Bool :=
  content.any annot_match

/-- The literal `.java` of `java_pattern`. -/
def javaLit : List Char := ".java".toList

/-- Line 43 of the script: `java_pattern.match(file)` with
`java_pattern = re.compile('^.*\\.java')` — true iff `.java` occurs at a
position preceded only by non-newline characters (`.` in `.*` does not
match a newline; there is no end anchor). -/
def java_match : List Char → Bool
  | [] => false
  | c :: cs => startsWith (c :: cs) javaLit || (c != '\n' && java_match cs)

/-- The literal `svn` of the first alternative of `ignore_pattern`. -/
def svnLit : List Char := "svn".toList

/-- Line 40 of the script: `ignore_pattern.match(file)` with
`ignore_pattern = re.compile('^(.svn|target|bin|classes)')` — true iff the
name starts with any non-newline character followed by `svn`, or with one
of the literals `target`, `bin`, `classes`. -/
def ignore_match (name : List Char) : Bool :=
  (match name with
   | [] => false
   | c :: cs => c != '\n' && startsWith cs svnLit)
  || startsWith name "target".toList
  || startsWith name "bin".toList
  || startsWith name "classes".toList

/-! ### The directory tree and `process_dir` (lines 35-44)

`os.listdir` enumerates a directory's entries; the walk recurses into a
subdirectory unless `ignore_pattern` matches its name, and dispatches a
file to `process_source` when `java_pattern` matches its name. The
functional view below records only each file's resulting content (when
`changed` is false `process_source` leaves the file alone, and in that case
`processLines` is the identity, so mapping `processLines` over dispatched
files is faithful either way; the temporary-file lifecycle is modelled
separately by the state-machine view further down). -/

inductive Entry where
  | file (name : List Char) (content : List (List Char)) : Entry
  | dir (name : List Char) (entries : List Entry) : Entry

mutual

/-- The effect of the walk on a single directory entry: files whose name
matches `java_pattern` get their content rewritten, other files are left
alone; a directory whose name matches `ignore_pattern` is not descended
into, any other directory is processed recursively. -/
def processEntry : Entry → Entry
  | .file n c => if java_match n then .file n (processLines c) else .file n c
  | .dir n es => if ignore_match n then .dir n es else .dir n (processEntries es)

/-- The effect of `process_dir` on a directory's entry list, in listing order. -/
def processEntries : List Entry → List Entry
  | [] => []
  | e :: es => processEntry e :: processEntries es

end

/-! ### State-machine view of `process_source` (lines 46-72)

`process_source` creates a temporary file (`tempfile.mkstemp`, before the
`try`), copies the source into it line by line applying `processLine`,
and then either promotes the temporary over the original (`shutil.move`,
when `changed`) or deletes it (`os.remove`). On any exception inside the
`try`, the bare `except` deletes the temporary file and the function
returns normally.

`FState` records the externally visible filesystem state: the content of
the original file and the content of the temporary file (`none` when it
does not exist). Each elementary filesystem operation is one step; a step
either completes or raises having had no effect, and an injected error
index `k` means the `k`-th step of the `try` body raises after the first
`k` steps ran (reading a line and writing it are merged into the one
`writeLine` step, as they have a single visible effect).

`shutil.move(tmpfile, filename)` is not elementary. Per its documented
semantics it performs `os.rename` — one atomic, indivisible step — only
when source and destination are on the same filesystem; otherwise it falls
back to copying the temporary over the original in place (`open(dst, 'wb')`
truncates the destination, which is then written incrementally — modelled
line by line) followed by `os.unlink` of the temporary. Whether the two are
on the same filesystem is an environment fact, not decided by the script
(`mkstemp` uses the system temporary directory while the rewritten files
live under the walk root), so it is a `Bool` parameter `sameFs` of the
model, and the move expands to `rename` or to
`truncateOrig :: copyLine* ++ [unlinkTmp]` accordingly. A fault in the
middle of the copy fallback thus leaves the original truncated to a prefix
of the rewritten content — the partial-overwrite path the rename branch
cannot exhibit. -/

structure FState where
  orig : List (List Char)
  tmp : Option (List (List Char))
deriving DecidableEq, Repr

/-- One elementary filesystem step of `process_source`. -/
inductive PStep where
  | writeLine (l : List Char) : PStep
  | rename : PStep
  | truncateOrig : PStep
  | copyLine (l : List Char) : PStep
  | unlinkTmp : PStep
  | removeTmp : PStep
deriving DecidableEq, Repr

/-- Effect of one step: `writeLine` appends a line to the temporary file;
`rename` (same-filesystem `shutil.move`) replaces the original's content
with the temporary's and removes the temporary in one step;
`truncateOrig` (start of the cross-filesystem copy fallback) empties the
original in place; `copyLine` appends one line of the copy to the original;
`unlinkTmp` (end of the fallback) removes the temporary; `removeTmp` is
`os.remove` of the temporary. -/
def applyStep (s : FState) : PStep → FState
  | .writeLine l => { s with tmp := s.tmp.map (fun t => t ++ [l]) }
  | .rename => { orig := s.tmp.getD s.orig, tmp := none }
  | .truncateOrig => { s with orig := [] }
  | .copyLine l => { s with orig := s.orig ++ [l] }
  | .unlinkTmp => { s with tmp := none }
  | .removeTmp => { s with tmp := none }

/-- Run a sequence of steps from a state. -/
def runSteps (s : FState) (steps : List PStep) : FState :=
  steps.foldl applyStep s

/-- State right after `tempfile.mkstemp`: original untouched, empty temporary. -/
def initState (content : List (List Char)) : FState :=
  { orig := content, tmp := some [] }

/-- The commit phase of the `try` body (lines 66-69): when some line
matched, `shutil.move` — an atomic `rename` on the same filesystem, the
truncate-copy-unlink sequence across filesystems; otherwise `os.remove`
of the temporary. At this point the temporary holds the whole processed
content, which is what the fallback copies. -/
def commitSteps (sameFs : Bool) (content : List (List Char)) : List PStep :=
  if changedFlag content then
    if sameFs then [PStep.rename]
    else PStep.truncateOrig
      :: ((processLines content).map PStep.copyLine ++ [PStep.unlinkTmp])
  else [PStep.removeTmp]

/-- The steps of the `try` body on a file with the given lines: write each
processed line to the temporary, then commit. -/
def bodySteps (sameFs : Bool) (content : List (List Char)) : List PStep :=
  (processLines content).map PStep.writeLine ++ commitSteps sameFs content

/-- The `try` body with an injected fault: with `errAt = some k` (for
`k` less than the number of steps) the `k`-th step raises after the first
`k` steps ran, and the raise-time state is returned in `.error`; otherwise
the body runs to completion. -/
def process_source_body (sameFs : Bool) (content : List (List Char))
    (errAt : Option Nat) : Except FState FState :=
  match errAt with
  | none => .ok (runSteps (initState content) (bodySteps sameFs content))
  | some k =>
    if k < (bodySteps sameFs content).length then
      .error (runSteps (initState content) ((bodySteps sameFs content).take k))
    else
      .ok (runSteps (initState content) (bodySteps sameFs content))

/-- `os.remove(tmpfile)`: removes the temporary file, raising
(`FileNotFoundError`) when it does not exist. -/
def os_remove (s : FState) : Except Unit FState :=
  match s.tmp with
  | some _ => .ok { s with tmp := none }
  | none => .error ()

/-- Lines 50-72: run the `try` body; on success return its final state, on
an exception run the bare `except` handler, which removes the temporary
file and swallows the exception (there is no `raise`). The only way an
exception can leave `process_source` is the handler's own `os.remove`
raising. -/
def process_source (sameFs : Bool) (content : List (List Char))
    (errAt : Option Nat) : Except Unit FState :=
  match process_source_body sameFs content errAt with
  | .ok s => .ok s
  | .error s => os_remove s

/-! ### The walk with injected per-file faults

`err` assigns to a file name the fault injected while processing that
file's content (`none`: no fault); `sameFs` is the filesystem-layout
environment fact shared by the run. The walk propagates an exception
(aborting everything) only if `process_source` itself raises. -/

mutual

/-- Fault-injected effect of the walk on one entry. -/
def processEntryE (sameFs : Bool) (err : List Char → Option Nat) :
    Entry → Except Unit Entry
  | .file n c =>
    if java_match n then
      match process_source sameFs c (err n) with
      | .ok s => .ok (.file n s.orig)
      | .error e => .error e
    else .ok (.file n c)
  | .dir n es =>
    if ignore_match n then .ok (.dir n es)
    else
      match processEntriesE sameFs err es with
      | .ok es2 => .ok (.dir n es2)
      | .error e => .error e

/-- Fault-injected effect of `process_dir` on a directory's entry list. -/
def processEntriesE (sameFs : Bool) (err : List Char → Option Nat) :
    List Entry → Except Unit (List Entry)
  | [] => .ok []
  | e :: es =>
    match processEntryE sameFs err e with
    | .error e1 => .error e1
    | .ok e2 =>
      match processEntriesE sameFs err es with
      | .error e1 => .error e1
      | .ok es2 => .ok (e2 :: es2)

end

/-! ### Concrete inputs and claim-side predicates used in the theorems below -/

/-- A remainder containing a second occurrence of the old import literal. -/
def c1BadRest : List Char := "A; // import org.apache.http.annotation.B".toList

/-- A one-line file content whose single line matches `annot_pattern`. -/
def c3content : List (List Char) := ["import org.apache.http.annotation.X;".toList]

/-- A two-line file content, both lines matching `annot_pattern`. -/
def c2content : List (List Char) :=
  ["import org.apache.http.annotation.A;".toList,
   "import org.apache.http.annotation.B;".toList]

/-- Name of a file whose processing will have a fault injected. -/
def badName : List Char := "Bad.java".toList

/-- Name of a file processed without faults. -/
def goodName : List Char := "Good.java".toList

/-- Fault assignment: the first step of processing `badName` raises. -/
def errBadGood : List Char → Option Nat := fun n => if n = badName then some 0 else none

/-- A legal POSIX file name: a newline followed by `.java`. -/
def badJavaName : List Char := '\n' :: ".java".toList

/-- A legal POSIX directory name: a newline followed by `svn`. -/
def badSvnName : List Char := '\n' :: "svn".toList

/-- Modelled from the claim's words for C9: eligibility as a plain substring
test, "a file is dispatched exactly when its name contains `.java` anywhere". -/
def javaClaimPred (name : List Char) : Bool := occursIn javaLit name

/-- Modelled from the claim's words for C10: skipped iff the name starts with
`target`, `bin`, `classes`, or its first character is any character followed
by `svn`. -/
def ignoreClaimPred (name : List Char) : Bool :=
  (match name with
   | [] => false
   | _ :: cs => startsWith cs svnLit)
  || startsWith name "target".toList
  || startsWith name "bin".toList
  || startsWith name "classes".toList

/-! ### Basic lemmas about the string primitives -/

theorem startsWith_nil {p : List Char} (h : startsWith [] p = true) : p = [] := by
  cases p with
  | nil => rfl
  | cons q qs => simp [startsWith] at h

theorem startsWith_nil_right : ∀ (s : List Char), startsWith s [] = true
  | [] => rfl
  | _ :: _ => rfl

theorem startsWith_append_left : ∀ (p t : List Char), startsWith (p ++ t) p = true
  | [], t => startsWith_nil_right t
  | q :: qs, t => by
    simp [List.cons_append, startsWith, startsWith_append_left qs t]

theorem startsWith_eq_append : ∀ (s p : List Char), startsWith s p = true →
    s = p ++ s.drop p.length
  | s, [], _ => by simp
  | [], q :: qs, h => by simp [startsWith] at h
  | c :: cs, q :: qs, h => by
    simp only [startsWith, Bool.and_eq_true, beq_iff_eq] at h
    obtain ⟨rfl, h2⟩ := h
    simpa using startsWith_eq_append cs qs h2

theorem startsWith_of_append : ∀ (a p x : List Char),
    startsWith (a ++ x) p = true → startsWith a (p.take a.length) = true
  | [], p, x, _ => rfl
  | _ :: _, [], _, _ => rfl
  | c :: cs, q :: qs, x, h => by
    simp only [List.cons_append, startsWith, Bool.and_eq_true] at h
    simp only [List.length_cons, List.take_succ_cons, startsWith, Bool.and_eq_true]
    exact ⟨h.1, startsWith_of_append cs qs x h.2⟩

theorem oldImport_ne_nil : oldImport ≠ [] := by decide

theorem annot_match_new_append (x : List Char) :
    annot_match (newImport ++ x) = false := by
  rw [Bool.eq_false_iff]
  intro h
  have h2 := startsWith_of_append newImport oldImport x h
  revert h2
  decide

/-! ### Lemmas about `pyReplace` -/

theorem replaceAux_nil (old new : List Char) (f : Nat) :
    replaceAux old new f [] = [] := by
  cases f <;> rfl

theorem replaceAux_congr (old new : List Char) (hold : old ≠ []) :
    ∀ (f1 f2 : Nat) (s : List Char), s.length ≤ f1 → s.length ≤ f2 →
      replaceAux old new f1 s = replaceAux old new f2 s := by
  have holdlen : 1 ≤ old.length := by
    cases old with
    | nil => exact absurd rfl hold
    | cons _ _ => simp
  intro f1
  induction f1 with
  | zero =>
    intro f2 s h1 _
    have hs : s = [] := List.eq_nil_of_length_eq_zero (Nat.le_zero.mp h1)
    subst hs
    rw [replaceAux_nil, replaceAux_nil]
  | succ k ih =>
    intro f2 s h1 h2
    cases s with
    | nil => rw [replaceAux_nil, replaceAux_nil]
    | cons c cs =>
      cases f2 with
      | zero => simp at h2
      | succ m =>
        simp only [replaceAux]
        by_cases hp : startsWith (c :: cs) old = true
        · rw [if_pos hp, if_pos hp]
          congr 1
          apply ih
          · rw [List.length_drop]
            simp only [List.length_cons] at h1 ⊢
            omega
          · rw [List.length_drop]
            simp only [List.length_cons] at h2 ⊢
            omega
        · rw [if_neg hp, if_neg hp]
          congr 1
          apply ih
          · simp only [List.length_cons] at h1; omega
          · simp only [List.length_cons] at h2; omega

theorem pyReplace_match (old new s : List Char) (hold : old ≠ [])
    (h : startsWith s old = true) :
    pyReplace old new s = new ++ pyReplace old new (s.drop old.length) := by
  have holdlen : 1 ≤ old.length := by
    cases old with
    | nil => exact absurd rfl hold
    | cons _ _ => simp
  cases s with
  | nil => exact absurd (startsWith_nil h) hold
  | cons c cs =>
    show replaceAux old new (cs.length + 1) (c :: cs) = _
    simp only [replaceAux, if_pos h]
    congr 1
    apply replaceAux_congr old new hold
    · rw [List.length_drop]
      simp only [List.length_cons]
      omega
    · exact Nat.le_refl _

theorem replaceAux_not_occurs (old new : List Char) :
    ∀ (f : Nat) (s : List Char), occursIn old s = false → replaceAux old new f s = s := by
  intro f
  induction f with
  | zero => intro s _; rfl
  | succ k ih =>
    intro s h
    cases s with
    | nil => rfl
    | cons c cs =>
      simp only [occursIn, Bool.or_eq_false_iff] at h
      simp only [replaceAux]
      rw [if_neg (fun hx => Bool.false_ne_true (h.1 ▸ hx))]
      exact congrArg (c :: ·) (ih cs h.2)

theorem pyReplace_not_occurs (old new s : List Char) (h : occursIn old s = false) :
    pyReplace old new s = s :=
  replaceAux_not_occurs old new s.length s h

/-! ### Lemmas about `processLine` -/

theorem processLine_of_not_match {l : List Char} (h : annot_match l = false) :
    processLine l = l := by
  simp [processLine, h]

theorem annot_match_old_append (r : List Char) :
    annot_match (oldImport ++ r) = true :=
  startsWith_append_left oldImport r

theorem processLine_match (r : List Char) :
    processLine (oldImport ++ r) = newImport ++ pyReplace oldImport newImport r := by
  unfold processLine
  rw [if_pos (annot_match_old_append r),
    pyReplace_match _ _ _ oldImport_ne_nil (startsWith_append_left _ _),
    List.drop_left]

theorem processLine_idem (l : List Char) : processLine (processLine l) = processLine l := by
  by_cases h : annot_match l = true
  · obtain ⟨r, hr⟩ : ∃ r, l = oldImport ++ r :=
      ⟨l.drop oldImport.length, startsWith_eq_append l oldImport h⟩
    subst hr
    rw [processLine_match]
    exact processLine_of_not_match (annot_match_new_append _)
  · rw [processLine_of_not_match (Bool.eq_false_iff.mpr h),
      processLine_of_not_match (Bool.eq_false_iff.mpr h)]

/-! ### Lemmas about the state machine -/

theorem runSteps_append (s : FState) (a b : List PStep) :
    runSteps s (a ++ b) = runSteps (runSteps s a) b :=
  List.foldl_append ..

theorem runSteps_writeLines (ls : List (List Char)) :
    ∀ (o : List (List Char)) (t : List (List Char)),
      runSteps ⟨o, some t⟩ (ls.map PStep.writeLine) = ⟨o, some (t ++ ls)⟩ := by
  induction ls with
  | nil => intro o t; simp [runSteps]
  | cons l ls ih =>
    intro o t
    have step : applyStep ⟨o, some t⟩ (PStep.writeLine l) = ⟨o, some (t ++ [l])⟩ := rfl
    calc runSteps ⟨o, some t⟩ ((l :: ls).map PStep.writeLine)
        = runSteps ⟨o, some (t ++ [l])⟩ (ls.map PStep.writeLine) := by
          simp [runSteps, List.map_cons, List.foldl_cons, step]
      _ = ⟨o, some ((t ++ [l]) ++ ls)⟩ := ih o (t ++ [l])
      _ = ⟨o, some (t ++ l :: ls)⟩ := by simp

theorem runSteps_copyLines (ls : List (List Char)) :
    ∀ (o : List (List Char)) (t : List (List Char)),
      runSteps ⟨o, some t⟩ (ls.map PStep.copyLine) = ⟨o ++ ls, some t⟩ := by
  induction ls with
  | nil => intro o t; simp [runSteps]
  | cons l ls ih =>
    intro o t
    have step : applyStep ⟨o, some t⟩ (PStep.copyLine l) = ⟨o ++ [l], some t⟩ := rfl
    calc runSteps ⟨o, some t⟩ ((l :: ls).map PStep.copyLine)
        = runSteps ⟨o ++ [l], some t⟩ (ls.map PStep.copyLine) := by
          simp [runSteps, List.map_cons, List.foldl_cons, step]
      _ = ⟨(o ++ [l]) ++ ls, some t⟩ := ih (o ++ [l]) t
      _ = ⟨o ++ l :: ls, some t⟩ := by simp

theorem commitSteps_length (sameFs : Bool) (content : List (List Char)) :
    (commitSteps sameFs content).length
      = if changedFlag content then
          (if sameFs then 1 else (processLines content).length + 2)
        else 1 := by
  unfold commitSteps
  by_cases h : changedFlag content = true
  · rw [if_pos h, if_pos h]
    cases sameFs
    · simp
    · simp
  · rw [if_neg h, if_neg h]
    rfl

/-- Running the commit phase from the post-scan state: whatever the route
(atomic rename, or truncate-copy-unlink), when it runs to completion the
original ends with the whole processed content and the temporary is gone;
with no change the temporary is deleted and the original untouched. -/
theorem runSteps_commit (sameFs : Bool) (content : List (List Char))
    (o : List (List Char)) :
    runSteps ⟨o, some (processLines content)⟩ (commitSteps sameFs content) =
      if changedFlag content then ⟨processLines content, none⟩ else ⟨o, none⟩ := by
  by_cases h : changedFlag content = true
  · rw [if_pos h]
    unfold commitSteps
    rw [if_pos h]
    cases sameFs
    · show runSteps (applyStep ⟨o, some (processLines content)⟩ PStep.truncateOrig)
        ((processLines content).map PStep.copyLine ++ [PStep.unlinkTmp]) = _
      rw [show applyStep ⟨o, some (processLines content)⟩ PStep.truncateOrig
          = ⟨[], some (processLines content)⟩ from rfl]
      rw [runSteps_append, runSteps_copyLines]
      simp [runSteps, applyStep]
    · simp [runSteps, applyStep]
  · rw [if_neg h]
    unfold commitSteps
    rw [if_neg h]
    simp [runSteps, applyStep]

/-- Running the whole `try` body: the original is replaced by the processed
content exactly when some line matched, and the temporary file is gone. -/
theorem runSteps_body (sameFs : Bool) (content : List (List Char)) :
    runSteps (initState content) (bodySteps sameFs content) =
      if changedFlag content then ⟨processLines content, none⟩ else ⟨content, none⟩ := by
  rw [bodySteps, runSteps_append, initState,
    runSteps_writeLines (processLines content) content [], List.nil_append]
  exact runSteps_commit sameFs content content

/-- The state after any strict prefix of the body's steps: while scanning
(up to and including the point where the commit starts), the original is
untouched and the temporary holds the processed lines written so far;
inside the cross-filesystem copy fallback the original has been truncated
and holds the prefix of the rewritten content copied so far, while the
temporary still holds everything. -/
theorem runSteps_body_take (sameFs : Bool) (content : List (List Char)) (k : Nat)
    (hk : k < (bodySteps sameFs content).length) :
    runSteps (initState content) ((bodySteps sameFs content).take k) =
      if k ≤ (processLines content).length
      then ⟨content, some ((processLines content).take k)⟩
      else ⟨(processLines content).take (k - (processLines content).length - 1),
            some (processLines content)⟩ := by
  by_cases hN : k ≤ (processLines content).length
  · rw [if_pos hN]
    have htake : (bodySteps sameFs content).take k
        = ((processLines content).take k).map PStep.writeLine := by
      rw [bodySteps, List.take_append_eq_append_take,
        Nat.sub_eq_zero_of_le (by simpa using hN), List.take_zero, List.append_nil,
        List.map_take]
    rw [htake, initState, runSteps_writeLines ((processLines content).take k) content []]
    simp
  · rw [if_neg hN]
    push_neg at hN
    have hlenb : (bodySteps sameFs content).length
        = (processLines content).length + (commitSteps sameFs content).length := by
      simp [bodySteps]
    have hcl : 2 ≤ (commitSteps sameFs content).length := by omega
    have hch : changedFlag content = true := by
      by_contra hc
      rw [commitSteps_length, if_neg hc] at hcl
      omega
    have hfs : sameFs = false := by
      cases sameFs
      · rfl
      · rw [commitSteps_length, if_pos hch] at hcl
        simp at hcl
    subst hfs
    have hcommit : commitSteps false content
        = PStep.truncateOrig
          :: ((processLines content).map PStep.copyLine ++ [PStep.unlinkTmp]) := by
      simp [commitSteps, hch]
    have hcl2 : (commitSteps false content).length = (processLines content).length + 2 := by
      rw [commitSteps_length, if_pos hch, if_neg (by simp)]
    have hkN : k < (processLines content).length + ((processLines content).length + 2) := by
      rw [hlenb, hcl2] at hk
      exact hk
    have hkup : k - (processLines content).length - 1 ≤ (processLines content).length := by
      omega
    have hmaple : ((processLines content).map PStep.writeLine).length ≤ k := by
      rw [List.length_map]
      omega
    have hjle : k - (processLines content).length - 1
        ≤ ((processLines content).map PStep.copyLine).length := by
      rw [List.length_map]
      exact hkup
    have htake : (bodySteps false content).take k
        = (processLines content).map PStep.writeLine
          ++ (PStep.truncateOrig
              :: ((processLines content).take
                    (k - (processLines content).length - 1)).map PStep.copyLine) := by
      rw [bodySteps, List.take_append_eq_append_take,
        List.take_of_length_le hmaple, hcommit]
      congr 1
      have hidx : k - ((processLines content).map PStep.writeLine).length
          = (k - (processLines content).length - 1) + 1 := by
        rw [List.length_map]
        omega
      rw [hidx, List.take_succ_cons]
      congr 1
      rw [List.take_append_eq_append_take, Nat.sub_eq_zero_of_le hjle,
        List.take_zero, List.append_nil, List.map_take]
    rw [htake, runSteps_append, initState,
      runSteps_writeLines (processLines content) content [], List.nil_append]
    show runSteps (applyStep ⟨content, some (processLines content)⟩ PStep.truncateOrig)
      (((processLines content).take (k - (processLines content).length - 1)).map
        PStep.copyLine) = _
    rw [show applyStep ⟨content, some (processLines content)⟩ PStep.truncateOrig
        = ⟨[], some (processLines content)⟩ from rfl]
    rw [runSteps_copyLines]
    simp

/-- With no injected fault, `process_source` returns normally: the original
is replaced by the processed content exactly when some line matched, and
the temporary file is gone. -/
theorem process_source_no_err (sameFs : Bool) (content : List (List Char)) :
    process_source sameFs content none =
      .ok (if changedFlag content then ⟨processLines content, none⟩ else ⟨content, none⟩) := by
  simp [process_source, process_source_body, runSteps_body]

/-- With a fault injected anywhere in the `try` body, the bare `except`
handler removes the temporary file (which still exists: every route clears
the temporary only in its very last step) and `process_source` returns
normally; the original is untouched when the fault hits at or before the
start of the commit, and otherwise — inside the cross-filesystem copy
fallback — is left holding the prefix of the rewritten content copied so
far. -/
theorem process_source_err (sameFs : Bool) (content : List (List Char)) (k : Nat)
    (hk : k < (bodySteps sameFs content).length) :
    process_source sameFs content (some k) =
      .ok (if k ≤ (processLines content).length
           then ⟨content, none⟩
           else ⟨(processLines content).take (k - (processLines content).length - 1),
                 none⟩) := by
  have hb : process_source_body sameFs content (some k)
      = .error (runSteps (initState content) ((bodySteps sameFs content).take k)) := by
    simp [process_source_body, if_pos hk]
  rw [runSteps_body_take sameFs content k hk] at hb
  by_cases hN : k ≤ (processLines content).length
  · rw [if_pos hN] at hb
    rw [if_pos hN]
    simp [process_source, hb, os_remove]
  · rw [if_neg hN] at hb
    rw [if_neg hN]
    simp [process_source, hb, os_remove]

/-- `process_source` never propagates an exception to its caller. -/
theorem process_source_ok (sameFs : Bool) (content : List (List Char))
    (errAt : Option Nat) :
    ∃ s, process_source sameFs content errAt = .ok s := by
  cases errAt with
  | none => exact ⟨_, process_source_no_err sameFs content⟩
  | some k =>
    by_cases hk : k < (bodySteps sameFs content).length
    · exact ⟨_, process_source_err sameFs content k hk⟩
    · refine ⟨if changedFlag content then ⟨processLines content, none⟩ else ⟨content, none⟩, ?_⟩
      simp [process_source, process_source_body, if_neg hk, runSteps_body]

mutual

/-- The fault-injected walk never propagates an exception from an entry. -/
theorem processEntryE_ok (sameFs : Bool) (err : List Char → Option Nat) :
    ∀ (e : Entry), ∃ e2, processEntryE sameFs err e = .ok e2
  | .file n c => by
    by_cases h : java_match n = true
    · obtain ⟨s, hs⟩ := process_source_ok sameFs c (err n)
      exact ⟨.file n s.orig, by simp [processEntryE, h, hs]⟩
    · exact ⟨.file n c, by simp [processEntryE, Bool.eq_false_iff.mpr h]⟩
  | .dir n es => by
    by_cases h : ignore_match n = true
    · exact ⟨.dir n es, by simp [processEntryE, h]⟩
    · obtain ⟨es2, hs, _⟩ := processEntriesE_ok sameFs err es
      exact ⟨.dir n es2, by simp [processEntryE, Bool.eq_false_iff.mpr h, hs]⟩

/-- The fault-injected walk processes every entry of a listing: it always
returns normally, with one output entry per input entry. -/
theorem processEntriesE_ok (sameFs : Bool) (err : List Char → Option Nat) :
    ∀ (es : List Entry),
      ∃ es2, processEntriesE sameFs err es = .ok es2 ∧ es2.length = es.length
  | [] => ⟨[], by simp [processEntriesE]⟩
  | e :: es => by
    obtain ⟨e2, he⟩ := processEntryE_ok sameFs err e
    obtain ⟨es2, hes, hlen⟩ := processEntriesE_ok sameFs err es
    exact ⟨e2 :: es2, by simp [processEntriesE, he, hes], by simp [hlen]⟩

end

/-! ### Lemmas about files with no matching line -/

theorem processLines_id : ∀ (c : List (List Char)),
    (∀ l ∈ c, annot_match l = false) → processLines c = c
  | [], _ => rfl
  | l :: ls, h => by
    simp only [processLines, List.map_cons]
    rw [processLine_of_not_match (h l (List.mem_cons_self l ls))]
    have ih := processLines_id ls (fun x hx => h x (List.mem_cons_of_mem l hx))
    simpa [processLines] using congrArg (l :: ·) ih

theorem changedFlag_false : ∀ (c : List (List Char)),
    (∀ l ∈ c, annot_match l = false) → changedFlag c = false
  | [], _ => rfl
  | l :: ls, h => by
    simp only [changedFlag, List.any_cons, Bool.or_eq_false_iff]
    refine ⟨h l (List.mem_cons_self l ls), ?_⟩
    exact changedFlag_false ls (fun x hx => h x (List.mem_cons_of_mem l hx))

/-! ### Characterizations of the name filters -/

theorem java_match_sound : ∀ (name : List Char), java_match name = true →
    ∃ a b, name = a ++ javaLit ++ b ∧ '\n' ∉ a
  | [], h => by simp [java_match] at h
  | c :: cs, h => by
    simp only [java_match, Bool.or_eq_true, Bool.and_eq_true, bne_iff_ne] at h
    cases h with
    | inl h1 =>
      refine ⟨[], (c :: cs).drop javaLit.length, ?_, by simp⟩
      simpa using startsWith_eq_append _ _ h1
    | inr h2 =>
      obtain ⟨a, b, hab, hna⟩ := java_match_sound cs h2.2
      exact ⟨c :: a, b, by simp [hab], by simp [hna, Ne.symm h2.1]⟩

theorem java_match_complete : ∀ (a b : List Char), '\n' ∉ a →
    java_match (a ++ javaLit ++ b) = true
  | [], b, _ => by
    have h : javaLit ++ b = '.' :: ("java".toList ++ b) := rfl
    rw [List.nil_append, h]
    show (startsWith ('.' :: ("java".toList ++ b)) javaLit
      || ('.' != '\n' && java_match ("java".toList ++ b))) = true
    rw [← h, startsWith_append_left javaLit b, Bool.true_or]
  | c :: as, b, hn => by
    have hc : c ≠ '\n' := fun he => hn (by simp [he])
    have ih := java_match_complete as b (fun hm => hn (List.mem_cons_of_mem c hm))
    have h : (c :: as) ++ javaLit ++ b = c :: (as ++ javaLit ++ b) := by simp
    rw [h]
    show (startsWith (c :: (as ++ javaLit ++ b)) javaLit
      || (c != '\n' && java_match (as ++ javaLit ++ b))) = true
    have ih' : java_match (as ++ (javaLit ++ b)) = true := by
      simpa [List.append_assoc] using ih
    simp [ih', bne_iff_ne, hc]

theorem ignore_match_iff (name : List Char) :
    ignore_match name = true ↔
      ((∃ c cs, name = c :: cs ∧ c ≠ '\n' ∧ startsWith cs svnLit = true)
        ∨ startsWith name "target".toList = true
        ∨ startsWith name "bin".toList = true
        ∨ startsWith name "classes".toList = true) := by
  cases name with
  | nil =>
    have h1 : startsWith [] "target".toList = false := rfl
    have h2 : startsWith [] "bin".toList = false := rfl
    have h3 : startsWith [] "classes".toList = false := rfl
    simp only [ignore_match, h1, h2, h3]
    simp [or_assoc]
  | cons c cs =>
    simp only [ignore_match, Bool.or_eq_true, Bool.and_eq_true, bne_iff_ne]
    constructor
    · rintro (((h | h) | h) | h)
      · exact Or.inl ⟨c, cs, rfl, h.1, h.2⟩
      · exact Or.inr (Or.inl h)
      · exact Or.inr (Or.inr (Or.inl h))
      · exact Or.inr (Or.inr (Or.inr h))
    · rintro (⟨c', cs', heq, hc, hs⟩ | h | h | h)
      · obtain ⟨rfl, rfl⟩ : c' = c ∧ cs' = cs := by
          injection heq with e1 e2; exact ⟨e1.symm, e2.symm⟩
        exact Or.inl (Or.inl (Or.inl ⟨hc, hs⟩))
      · exact Or.inl (Or.inl (Or.inr h))
      · exact Or.inl (Or.inr h)
      · exact Or.inr h

/-! ### The claims -/

/-- Claim C1 as stated is false: the script rewrites a matching line with
`line.replace(...)`, which substitutes every occurrence of the old import
literal, not only the leading prefix. On a matching line whose remainder
contains the literal a second time, the remainder is not preserved
verbatim. -/
theorem claim_C1_counterexample :
    processLine (oldImport ++ c1BadRest) ≠ newImport ++ c1BadRest := by decide

/-- Claim C1 (amended): processing a file keeps one output line per input
line in order; a non-matching line is preserved verbatim; a matching line
has every occurrence of the old import literal replaced — in particular,
when the remainder after the leading prefix contains no further occurrence,
exactly the prefix is replaced and the remainder is preserved verbatim. -/
theorem claim_C1 (c : List (List Char)) (l r : List Char) :
    (processLines c).length = c.length
    ∧ processLines c = c.map processLine
    ∧ (annot_match l = false → processLine l = l)
    ∧ (l = oldImport ++ r → occursIn oldImport r = false →
        processLine l = newImport ++ r) := by
  refine ⟨by simp [processLines], rfl, fun h => processLine_of_not_match h, ?_⟩
  rintro rfl hocc
  rw [processLine_match, pyReplace_not_occurs _ _ _ hocc]

/-- Witness for C1 at concrete inputs: a matching line with an
occurrence-free remainder is rewritten to the new prefix plus that
remainder, and a non-matching line is untouched. -/
theorem claim_C1_witness :
    processLine (oldImport ++ "ThreadSafe;".toList) = newImport ++ "ThreadSafe;".toList
    ∧ processLine "class Foo".toList = "class Foo".toList := by
  have h1 := claim_C1 [] (oldImport ++ "ThreadSafe;".toList) "ThreadSafe;".toList
  have h2 := claim_C1 [] "class Foo".toList []
  exact ⟨h1.2.2.2 rfl (by decide), h2.2.2.1 (by decide)⟩

/-- Claim C2 as stated is false: `shutil.move` is an atomic indivisible
replacement only on one filesystem. Across filesystems (the layout
`mkstemp` sets up) it copies the temporary over the original in place, and
an error in mid-copy — here, after the first of two lines — leaves the
original holding just one rewritten line: neither its content from before
processing began nor the complete rewrite, with the temporary then deleted
by the handler. -/
theorem claim_C2_counterexample :
    process_source_body false c2content (some 4)
      = .error ⟨["import net.jcip.annotations.A;".toList],
                some ["import net.jcip.annotations.A;".toList,
                      "import net.jcip.annotations.B;".toList]⟩
    ∧ process_source false c2content (some 4)
      = .ok ⟨["import net.jcip.annotations.A;".toList], none⟩
    ∧ ["import net.jcip.annotations.A;".toList] ≠ c2content
    ∧ ["import net.jcip.annotations.A;".toList] ≠ processLines c2content :=
  ⟨rfl, rfl, by decide, by decide⟩

/-- Claim C2 (amended): when the temporary and the original are on the same
filesystem, `shutil.move` is an atomic rename and the original is never
partially overwritten — at every intermediate point its content is its
initial or its fully rewritten value, the completed body replaces it in the
single rename step exactly when a change occurred, and on no change or on a
fault at any body step the temporary is deleted with the original exactly
as it was. When they are on different filesystems the completed run still
ends with the full rewrite, but `shutil.move` copies the temporary over the
original in place, and a fault then leaves the original holding a prefix of
the rewritten content (all of it only once the copy finished), with the
temporary still deleted. -/
theorem claim_C2 (c : List (List Char)) (sameFs : Bool) (k : Nat) :
    ((runSteps (initState c) ((bodySteps true c).take k)).orig = c
      ∨ (runSteps (initState c) ((bodySteps true c).take k)).orig = processLines c)
    ∧ runSteps (initState c) (bodySteps sameFs c)
        = (if changedFlag c then ⟨processLines c, none⟩ else ⟨c, none⟩)
    ∧ (k < (bodySteps true c).length → process_source true c (some k) = .ok ⟨c, none⟩)
    ∧ process_source sameFs c none
        = .ok (if changedFlag c then ⟨processLines c, none⟩ else ⟨c, none⟩)
    ∧ (k < (bodySteps false c).length →
        process_source false c (some k)
          = .ok (if k ≤ (processLines c).length then ⟨c, none⟩
                 else ⟨(processLines c).take (k - (processLines c).length - 1),
                       none⟩)) := by
  have hlen1 : (bodySteps true c).length = (processLines c).length + 1 := by
    rw [bodySteps, List.length_append, List.length_map, commitSteps_length]
    by_cases h : changedFlag c = true
    · rw [if_pos h, if_pos rfl]
    · rw [if_neg h]
  refine ⟨?_, runSteps_body sameFs c, fun hk => ?_, process_source_no_err sameFs c,
    fun hk => process_source_err false c k hk⟩
  · by_cases hk : k < (bodySteps true c).length
    · rw [runSteps_body_take true c k hk]
      have hN : k ≤ (processLines c).length := by omega
      rw [if_pos hN]
      left
      rfl
    · have ht : (bodySteps true c).take k = bodySteps true c :=
        List.take_of_length_le (by omega)
      rw [ht, runSteps_body]
      by_cases hch : changedFlag c = true
      · right; simp [hch]
      · left; simp [Bool.eq_false_iff.mpr hch]
  · have hN : k ≤ (processLines c).length := by omega
    rw [process_source_err true c k hk, if_pos hN]

/-- Witness for C2 at concrete inputs: a fault at step 1 on the rename
route leaves the original untouched; a fault at step 3 on the copy-fallback
route (right after the destination was truncated) leaves the original
empty, the temporary deleted. -/
theorem claim_C2_witness :
    process_source true c2content (some 1) = .ok ⟨c2content, none⟩
    ∧ process_source false c2content (some 3) = .ok ⟨[], none⟩ := by
  have h1 := (claim_C2 c2content true 1).2.2.1 (by decide)
  have h2 := (claim_C2 c2content false 3).2.2.2.2 (by decide)
  have hlen : (processLines c2content).length = 2 := by decide
  rw [hlen] at h2
  refine ⟨h1, ?_⟩
  simpa using h2

/-- Claim C3 as stated is false: an exception raised inside the `try` body
of `process_source` does not propagate to the caller — the bare `except`
removes the temporary file and the function returns normally, and the walk
then rewrites the remaining files, so an error does not abort the run. -/
theorem claim_C3_counterexample :
    (∃ s, process_source_body false c3content (some 0) = .error s)
    ∧ process_source false c3content (some 0) = .ok ⟨c3content, none⟩
    ∧ processEntriesE false errBadGood
        [Entry.file badName c3content, Entry.file goodName c3content]
      = .ok [Entry.file badName c3content,
             Entry.file goodName (processLines c3content)] := by
  refine ⟨⟨⟨c3content, some []⟩, rfl⟩, rfl, ?_⟩
  have hbad : process_source false c3content (errBadGood badName)
      = .ok ⟨c3content, none⟩ := rfl
  have hgood : process_source false c3content (errBadGood goodName)
      = .ok ⟨processLines c3content, none⟩ := rfl
  have hj1 : java_match badName = true := by decide
  have hj2 : java_match goodName = true := by decide
  simp [processEntriesE, processEntryE, hj1, hj2, hbad, hgood]

/-- Claim C3 (amended): if an exception is raised at any step while
processing a file, the temporary output file (which exists at that point)
is removed and the exception is swallowed by the bare `except`:
`process_source` returns normally, so the run continues and files rewritten
before the error remain rewritten. The original file is untouched whenever
the exception occurs at or before the start of the commit; an exception
inside a cross-filesystem move's copy fallback can instead leave the
original partially overwritten, and it is not restored. -/
theorem claim_C3 (sameFs : Bool) (c : List (List Char)) (k : Nat)
    (hk : k < (bodySteps sameFs c).length) :
    (∃ s, process_source_body sameFs c (some k) = .error s ∧ s.tmp.isSome = true)
    ∧ (∃ s2, process_source sameFs c (some k) = .ok s2 ∧ s2.tmp = none)
    ∧ (k ≤ (processLines c).length →
        process_source sameFs c (some k) = .ok ⟨c, none⟩) := by
  have hb : process_source_body sameFs c (some k)
      = .error (runSteps (initState c) ((bodySteps sameFs c).take k)) := by
    simp [process_source_body, if_pos hk]
  rw [runSteps_body_take sameFs c k hk] at hb
  refine ⟨?_, ?_, fun hN => ?_⟩
  · by_cases hN : k ≤ (processLines c).length
    · rw [if_pos hN] at hb
      exact ⟨_, hb, rfl⟩
    · rw [if_neg hN] at hb
      exact ⟨_, hb, rfl⟩
  · refine ⟨_, process_source_err sameFs c k hk, ?_⟩
    by_cases hN : k ≤ (processLines c).length
    · rw [if_pos hN]
    · rw [if_neg hN]
  · rw [process_source_err sameFs c k hk, if_pos hN]

/-- Witness for C3 (amended) at a concrete input: a fault at the very first
step, on the cross-filesystem layout. -/
theorem claim_C3_witness : process_source false c3content (some 0) = .ok ⟨c3content, none⟩ :=
  (claim_C3 false c3content 0 (by decide)).2.2 (by decide)

/-- Claim C4: `process_source` never raises to its caller — for every
content, filesystem layout and injected fault it returns normally (the
temporary file still exists when the bare `except` runs, so the handler's
own `os.remove` cannot raise either) — and consequently the directory walk
always returns normally with one output entry per input entry, continuing
with the remaining files after a per-file failure. -/
theorem claim_C4 (sameFs : Bool) (c : List (List Char)) (errAt : Option Nat)
    (err : List Char → Option Nat) (es : List Entry)
    (e : Entry) (e2 : Entry) (es2 : List Entry) :
    (∃ s, process_source sameFs c errAt = .ok s)
    ∧ (∃ es', processEntriesE sameFs err es = .ok es' ∧ es'.length = es.length)
    ∧ (processEntryE sameFs err e = .ok e2 → processEntriesE sameFs err es = .ok es2 →
        processEntriesE sameFs err (e :: es) = .ok (e2 :: es2)) := by
  refine ⟨process_source_ok sameFs c errAt, processEntriesE_ok sameFs err es,
    fun h1 h2 => ?_⟩
  simp [processEntriesE, h1, h2]

/-- Witness for C4: the walk over a singleton listing with no faults,
with the implication's hypotheses discharged at concrete entries. -/
theorem claim_C4_witness :
    processEntriesE false (fun _ => none) [Entry.file "B.txt".toList []]
      = .ok [Entry.file "B.txt".toList []] := by
  have h := claim_C4 false [] none (fun _ => none) []
    (Entry.file "B.txt".toList []) (Entry.file "B.txt".toList []) []
  refine h.2.2 ?_ ?_
  · have hj : java_match "B.txt".toList = false := by decide
    simp only [processEntryE]
    rw [if_neg (by rw [hj]; exact Bool.false_ne_true)]
  · simp [processEntriesE]

/-- Claim C5: the walk never descends into a directory whose name matches
the ignore list: such a directory's whole subtree is returned untouched,
whatever it contains; and `target` matches the ignore list, so every file
under a directory named `target` is left unmodified. -/
theorem claim_C5 (n : List Char) (es : List Entry) (h : ignore_match n = true) :
    processEntry (.dir n es) = .dir n es ∧ ignore_match "target".toList = true :=
  ⟨by simp [processEntry, h], by decide⟩

/-- Witness for C5: a `target` directory containing an eligible file with a
matching line is returned exactly as it was. -/
theorem claim_C5_witness :
    processEntry (.dir "target".toList
        [.file "A.java".toList ["import org.apache.http.annotation.X;".toList]])
      = .dir "target".toList
        [.file "A.java".toList ["import org.apache.http.annotation.X;".toList]] :=
  (claim_C5 "target".toList
    [.file "A.java".toList ["import org.apache.http.annotation.X;".toList]]
    (by decide)).1

/-- Claim C6: a file whose name does not match the eligibility filter is
left untouched by the walk; and an eligible file none of whose lines match
is left untouched with the temporary file deleted at the end. -/
theorem claim_C6 (n : List Char) (c : List (List Char)) (sameFs : Bool) :
    (java_match n = false → processEntry (.file n c) = .file n c)
    ∧ ((∀ l ∈ c, annot_match l = false) →
        processLines c = c ∧ process_source sameFs c none = .ok ⟨c, none⟩) := by
  constructor
  · intro h
    simp [processEntry, h]
  · intro h
    refine ⟨processLines_id c h, ?_⟩
    rw [process_source_no_err sameFs c, changedFlag_false c h]
    simp

/-- Witness for C6 at concrete inputs: a non-eligible file name, and an
eligible content with no matching line. -/
theorem claim_C6_witness :
    processEntry (.file "README.txt".toList ["public class A".toList])
      = .file "README.txt".toList ["public class A".toList]
    ∧ process_source false ["public class A".toList] none
      = .ok ⟨["public class A".toList], none⟩ := by
  have h := claim_C6 "README.txt".toList ["public class A".toList] false
  exact ⟨h.1 (by decide), (h.2 (by decide)).2⟩

/-- Claim C7: the per-file rewrite is idempotent — processing already
processed content changes nothing, because a rewritten line starts with
the new import literal and no longer matches `annot_pattern`. -/
theorem claim_C7 (c : List (List Char)) :
    processLines (processLines c) = processLines c := by
  unfold processLines
  rw [List.map_map]
  simp [Function.comp_def, processLine_idem]

/-- Claim C8: the concrete line `import org.apache.http.annotation.ThreadSafe;`
is rewritten to `import net.jcip.annotations.ThreadSafe;`, and an eligible
file whose content is exactly `import java.util.List;` is left byte-identical
(no change is detected, so the temporary is discarded). -/
theorem claim_C8 (sameFs : Bool) :
    processLine "import org.apache.http.annotation.ThreadSafe;".toList
      = "import net.jcip.annotations.ThreadSafe;".toList
    ∧ processLines ["import java.util.List;".toList]
      = ["import java.util.List;".toList]
    ∧ process_source sameFs ["import java.util.List;".toList] none
      = .ok ⟨["import java.util.List;".toList], none⟩ := by
  refine ⟨by decide, by decide, ?_⟩
  rw [process_source_no_err, (by decide : changedFlag ["import java.util.List;".toList] = false)]
  simp

/-- Claim C9 as stated is false: eligibility is not a plain substring test.
The name consisting of a newline followed by `.java` contains `.java`, yet
`java_pattern.match` rejects it, because `.*` does not match a newline. -/
theorem claim_C9_counterexample :
    java_match badJavaName = false ∧ javaClaimPred badJavaName = true := by decide

/-- Claim C9 (amended): a file name is dispatched to the rewriter exactly
when it contains `.java` at a position preceded only by non-newline
characters (no end anchor, so it is not an extension test); in particular
`Foo.java.orig` and `x.javascript` are dispatched. -/
theorem claim_C9 (name : List Char) :
    (java_match name = true ↔ ∃ a b, name = a ++ javaLit ++ b ∧ '\n' ∉ a)
    ∧ java_match "Foo.java.orig".toList = true
    ∧ java_match "x.javascript".toList = true := by
  refine ⟨⟨java_match_sound name, ?_⟩, by decide, by decide⟩
  rintro ⟨a, b, rfl, hna⟩
  exact java_match_complete a b hna

/-- Witness for C9: the characterization applied at `Foo.java.orig`, with
the decomposition's side conditions discharged concretely. -/
theorem claim_C9_witness : java_match "Foo.java.orig".toList = true :=
  (claim_C9 "Foo.java.orig".toList).1.mpr
    ⟨"Foo".toList, ".orig".toList, by decide, by decide⟩

/-- Claim C10 as stated is false: the `.svn` alternative's wildcard is not
"any character". The name consisting of a newline followed by `svn` has its
first character followed by `svn`, yet `ignore_pattern.match` rejects it,
because `.` does not match a newline. -/
theorem claim_C10_counterexample :
    ignore_match badSvnName = false ∧ ignoreClaimPred badSvnName = true := by decide

/-- Claim C10 (amended): a directory name matches the ignore list exactly
when it starts with `target`, `bin` or `classes`, or its first character is
any character other than a newline followed by `svn`; in particular
`binaries`, `targets` and `Xsvn` all match and are never descended into. -/
theorem claim_C10 (name : List Char) :
    (ignore_match name = true ↔
      ((∃ c cs, name = c :: cs ∧ c ≠ '\n' ∧ startsWith cs svnLit = true)
        ∨ startsWith name "target".toList = true
        ∨ startsWith name "bin".toList = true
        ∨ startsWith name "classes".toList = true))
    ∧ ignore_match "binaries".toList = true
    ∧ ignore_match "targets".toList = true
    ∧ ignore_match "Xsvn".toList = true :=
  ⟨ignore_match_iff name, by decide, by decide, by decide⟩

/-- Witness for C10: the characterization applied at `Xsvn`, with the
decomposition's side conditions discharged concretely. -/
theorem claim_C10_witness : ignore_match "Xsvn".toList = true :=
  (claim_C10 "Xsvn".toList).1.mpr
    (Or.inl ⟨'X', "svn".toList, rfl, by decide, by decide⟩)

end Jcip
